import Mathlib

/-!
Verification of the core numeric transforms of FundShortingAnalysis.

The development shallowly embeds the two source files:

* `insiderTransactions.py` — `compute_insider_history` turns a list of raw
  transaction records into a daily cumulative net-insider series over an
  inclusive date window.
* `pricePeaks.py` — `extract_peaks_from_series` finds local maxima via
  `scipy.signal.find_peaks` and ranks them, and `get_top_companies` ranks
  tickers by the absolute mean of their prices.

Modelling conventions:

* Monetary amounts are exact rationals (`ℚ`); Python floats are treated as
  exact decimal arithmetic.
* Calendar dates are represented after parsing by their serial day number
  (`toRd`, days counted from 0000-03-01 of the proleptic Gregorian
  calendar); the window endpoints are passed as such day numbers.  This is
  the standard order-preserving bijection between civil dates and integers,
  so date comparisons, date ranges and day differences from the Python code
  become `Nat` comparisons, integer ranges and subtraction.
* Python dictionary fields are `Option PyVal` where `PyVal` is a string or
  a number; a missing field triggers the `dict.get` default from the code.
* `float(...)` is modelled on decimal literals with optional sign and
  fractional part; exponents, `inf`/`nan`, underscores and surrounding
  whitespace are outside the modelled grammar.  `str.lower` is modelled on
  ASCII letters.
* Exceptions are modelled with `Except`: operations the Python code wraps
  in `try`/`except` return `Except` values that the translation matches on
  exactly where the code catches them; the one fallible operation the code
  does not guard (`.lower()` on a non-string) propagates as an error of
  the whole computation.
-/

namespace FundShorting

/-! ## Calendar dates and strict `%Y-%m-%d` parsing -/

/-- A civil calendar date, as produced by `datetime.date`. -/
structure CalDate where
  year : Nat
  month : Nat
  day : Nat
deriving DecidableEq

/-- Gregorian leap-year rule, as in `datetime`. -/
def isLeap (y : Nat) : Bool :=
  y % 4 == 0 && (y % 100 != 0 || y % 400 == 0)

/-- Number of days in a month, as validated by `datetime.date`. -/
def daysInMonth (y m : Nat) : Nat :=
  if m = 2 then (if isLeap y then 29 else 28)
  else if m = 4 ∨ m = 6 ∨ m = 9 ∨ m = 11 then 30
  else 31

/-- The validity check performed by the `datetime.date` constructor
(`MINYEAR = 1`, `MAXYEAR = 9999`). -/
def validDate (y m d : Nat) : Bool :=
  decide (1 ≤ y) && decide (y ≤ 9999) && decide (1 ≤ m) && decide (m ≤ 12) &&
    decide (1 ≤ d) && decide (d ≤ daysInMonth y m)

/-- Serial day number of a date: days since 0000-03-01 of the proleptic
Gregorian calendar (the standard `days_from_civil` computation, shifted so
that every value is a natural number for years ≥ 1). -/
def toRd (dt : CalDate) : Nat :=
  let y := if dt.month ≤ 2 then dt.year - 1 else dt.year
  let era := y / 400
  let yoe := y % 400
  let mp := (dt.month + 9) % 12
  let doy := (153 * mp + 2) / 5 + (dt.day - 1)
  let doe := yoe * 365 + yoe / 4 - yoe / 100 + doy
  era * 146097 + doe

/-- Numeric value of an ASCII digit character. -/
def digitVal (c : Char) : Nat := c.toNat - 48

/-- Day-of-month component of CPython's `_strptime` for `%d`, anchored at
the end of the string: the regex `3[01]|[12]\d|0[1-9]|[1-9]` followed by
end-of-input, alternatives tried in order with backtracking. -/
def parseDayChars : List Char → Option Nat
  | [a, b] =>
    if a = '3' && (b = '0' || b = '1') then some (30 + digitVal b)
    else if (a = '1' || a = '2') && b.isDigit then some (digitVal a * 10 + digitVal b)
    else if a = '0' && b.isDigit && b != '0' then some (digitVal b)
    else none
  | [a] => if a.isDigit && a != '0' then some (digitVal a) else none
  | _ => none

/-- Month and day of CPython's `_strptime` for `%m-%d` at the end of the
string: month regex `1[0-2]|0[1-9]|[1-9]`, a literal `-`, then the day.
The two structural cases are disjoint, mirroring the regex backtracking. -/
def parseMDChars : List Char → Option (Nat × Nat)
  | m1 :: m2 :: '-' :: rest =>
    let mOpt : Option Nat :=
      if m1 = '1' && (m2 = '0' || m2 = '1' || m2 = '2') then some (10 + digitVal m2)
      else if m1 = '0' && m2.isDigit && m2 != '0' then some (digitVal m2)
      else none
    match mOpt with
    | some m => (parseDayChars rest).map (fun d => (m, d))
    | none => none
  | m1 :: '-' :: rest =>
    if m1.isDigit && m1 != '0' then (parseDayChars rest).map (fun d => (digitVal m1, d))
    else none
  | _ => none

/-- `datetime.datetime.strptime(s, "%Y-%m-%d").date()` on a string:
exactly four digits of year, `-`, month, `-`, day, end of input, then the
`datetime.date` range validation. `none` models the raised `ValueError`. -/
def parseDateChars : List Char → Option CalDate
  | y1 :: y2 :: y3 :: y4 :: '-' :: rest =>
    if y1.isDigit && y2.isDigit && y3.isDigit && y4.isDigit then
      let y := digitVal y1 * 1000 + digitVal y2 * 100 + digitVal y3 * 10 + digitVal y4
      match parseMDChars rest with
      | some (m, d) => if validDate y m d then some ⟨y, m, d⟩ else none
      | none => none
    else none
  | _ => none

def parseDate (s : String) : Option CalDate := parseDateChars s.data

/-! ## Python values, records, and fallible primitives -/

/-- A Python value appearing in a transaction record field: a string or a
number. -/
inductive PyVal where
  | str : String → PyVal
  | int : Int → PyVal
deriving DecidableEq

/-- A raw transaction record, as consumed by `compute_insider_history`.
Each field is optional, modelling `txn.get(...)` on the dictionary. -/
structure RawTxn where
  transactionDate : Option PyVal
  transactionType : Option PyVal
  transactionValue : Option PyVal
deriving DecidableEq

/-- The one kind of exception the translated code can fail to catch:
`AttributeError` from calling `.lower()` on a non-string. -/
inductive PyErr where
  | attributeError : PyErr
deriving DecidableEq

/-- `txn.get("transactionDate", "")`. -/
def dateVal (txn : RawTxn) : PyVal := txn.transactionDate.getD (.str "")

/-- `txn.get("transactionType", "")`. -/
def typeVal (txn : RawTxn) : PyVal := txn.transactionType.getD (.str "")

/-- `txn.get("transactionValue", 0)`. -/
def valueVal (txn : RawTxn) : PyVal := txn.transactionValue.getD (.int 0)

/-- `datetime.datetime.strptime(v, "%Y-%m-%d").date()` as a fallible
operation: a non-string raises `TypeError`, a non-matching string raises
`ValueError`; both are caught identically by the surrounding `except`. -/
def strptimeE : PyVal → Except Unit CalDate
  | .str s =>
    match parseDate s with
    | some d => .ok d
    | none => .error ()
  | .int _ => .error ()

/-- Unsigned decimal digits to a natural number. -/
def natOfDigits (cs : List Char) : Nat :=
  cs.foldl (fun acc c => acc * 10 + digitVal c) 0

/-- Apply an optional leading minus sign. -/
def sgnApply (neg : Bool) (q : ℚ) : ℚ := if neg then -q else q

/-- Python `float(s)` on a decimal literal: optional sign, then digits
with an optional decimal point, at least one digit overall. -/
def parseFloatChars (cs : List Char) : Option ℚ :=
  let (neg, rest) :=
    match cs with
    | '-' :: r => (true, r)
    | '+' :: r => (false, r)
    | r => (false, r)
  let intPart := rest.takeWhile Char.isDigit
  let rest2 := rest.dropWhile Char.isDigit
  match rest2 with
  | [] =>
    if intPart.isEmpty then none
    else some (sgnApply neg (natOfDigits intPart))
  | '.' :: fracRest =>
    let fracPart := fracRest.takeWhile Char.isDigit
    let rest3 := fracRest.dropWhile Char.isDigit
    if rest3.isEmpty && !(intPart.isEmpty && fracPart.isEmpty) then
      some (sgnApply neg ((natOfDigits intPart : ℚ) +
        (natOfDigits fracPart : ℚ) / ((10 : ℚ) ^ fracPart.length)))
    else none
  | _ => none

/-- `float(v)` as a fallible operation; numbers convert exactly, strings
go through the decimal grammar. -/
def floatE : PyVal → Except Unit ℚ
  | .str s =>
    match parseFloatChars s.data with
    | some q => .ok q
    | none => .error ()
  | .int n => .ok (n : ℚ)

/-- ASCII `str.lower`. -/
def lowerStr (s : String) : String := String.mk (s.data.map Char.toLower)

/-- `v.lower()`: raises `AttributeError` when `v` is not a string.  This
call sits outside every `try` block of `compute_insider_history`. -/
def lowerE : PyVal → Except PyErr String
  | .str s => .ok (lowerStr s)
  | .int _ => .error .attributeError

/-- Python's substring test `needle in hay` on character lists. -/
def containsSub (needle hay : List Char) : Bool :=
  (List.range (hay.length + 1)).any (fun i => needle.isPrefixOf (hay.drop i))

/-- The signed contribution of a transaction: `"buy" in t` adds the
amount, `elif "sell" in t` subtracts it, anything else contributes 0.
`tl` is the already lower-cased type string. -/
def netValueOf (tl : String) (v : ℚ) : ℚ :=
  if containsSub "buy".data tl.data then v
  else if containsSub "sell".data tl.data then -v
  else 0

/-! ## The reconstructor `compute_insider_history` -/

/-- Fate of one transaction record inside the per-record loop. -/
inductive TxnOutcome where
  | kept : Nat → ℚ → TxnOutcome
  | droppedWithWarning : TxnOutcome
  | droppedSilently : TxnOutcome
deriving DecidableEq

/-- One iteration of the loop of `compute_insider_history` (lines 88-108):
parse the date (failure: warn and skip), silently skip out-of-window
dates, parse the amount (failure: amount 0), classify by type substring.
Only the unguarded `.lower()` can make the iteration itself fail. -/
def processTxnE (s e : Nat) (txn : RawTxn) : Except PyErr TxnOutcome :=
  match strptimeE (dateVal txn) with
  | .error _ => .ok .droppedWithWarning
  | .ok dt =>
    let r := toRd dt
    if r < s ∨ e < r then .ok .droppedSilently
    else
      let v : ℚ :=
        match floatE (valueVal txn) with
        | .ok q => q
        | .error _ => 0
      match lowerE (typeVal txn) with
      | .error err => .error err
      | .ok tl => .ok (.kept r (netValueOf tl v))

/-- The `records` list accumulated by the loop, in input order; an escaped
exception aborts the whole computation. -/
def recordsE (s e : Nat) : List RawTxn → Except PyErr (List (Nat × ℚ))
  | [] => .ok []
  | txn :: rest =>
    match processTxnE s e txn with
    | .error err => .error err
    | .ok (.kept d v) => (recordsE s e rest).map (fun l => (d, v) :: l)
    | .ok .droppedWithWarning => recordsE s e rest
    | .ok .droppedSilently => recordsE s e rest

/-- `df.groupby('date')['net_value'].sum()` at one date, combined with the
`reindex(..., fill_value=0)`: the summed net value of the surviving
records carrying that date, 0 if there are none. -/
def dailyNet (recs : List (Nat × ℚ)) (d : Nat) : ℚ :=
  ((recs.filter (fun r => decide (r.1 = d))).map Prod.snd).sum

/-- `pd.date_range(start, end)`: every day of the inclusive window, in
ascending order (empty when `start > end`). -/
def dateRange (s e : Nat) : List Nat :=
  if e < s then [] else (List.range (e - s + 1)).map (fun i => s + i)

/-- Running prefix sums starting from `acc` (`Series.cumsum`). -/
def cumsumFrom (acc : ℚ) : List ℚ → List ℚ
  | [] => []
  | x :: xs => (acc + x) :: cumsumFrom (acc + x) xs

def cumsum (xs : List ℚ) : List ℚ := cumsumFrom 0 xs

/-- Lines 113-123: reindex the per-day sums over the full window and take
the cumulative sum; the result pairs each day with its running total. -/
def buildSeries (recs : List (Nat × ℚ)) (s e : Nat) : List (Nat × ℚ) :=
  (dateRange s e).zip (cumsum ((dateRange s e).map (dailyNet recs)))

/-- `compute_insider_history(transactions, start_date, end_date)`.
`.ok none` is the distinguished empty `DataFrame` returned when no record
survives; `.ok (some out)` is the reconstructed cumulative series;
`.error` is an escaped exception. -/
def computeInsiderHistoryE (txns : List RawTxn) (s e : Nat) :
    Except PyErr (Option (List (Nat × ℚ))) :=
  match recordsE s e txns with
  | .error err => .error err
  | .ok recs => .ok (if recs.isEmpty then none else some (buildSeries recs s e))

/-! ## The peak selector `extract_peaks_from_series` -/

/-- Inner plateau scan of scipy's `_local_maxima_1d`: starting at `j`,
advance while `j < iMax` and `x[j]` equals the candidate value `v`
(`while i_ahead < i_max and x[i_ahead] == x[i]`).  Structured with fuel;
`localMaxima` supplies enough for the loop to run to completion. -/
def plateauEnd (x : List ℚ) (iMax : Nat) (v : ℚ) : Nat → Nat → Nat
  | 0, j => j
  | fuel + 1, j =>
    if j < iMax ∧ x.getD j 0 = v then plateauEnd x iMax v fuel (j + 1) else j

/-- Outer loop of scipy's `_local_maxima_1d`: for `i` from 1 while
`i < i_max`, a rising edge (`x[i-1] < x[i]`) followed by a plateau whose
first differing sample is lower (`x[i_ahead] < x[i]`) records the plateau
midpoint `(left_edge + right_edge) // 2` and resumes after the plateau. -/
def lmAux (x : List ℚ) (iMax : Nat) : Nat → Nat → List Nat
  | 0, _ => []
  | fuel + 1, i =>
    if i < iMax then
      if x.getD (i - 1) 0 < x.getD i 0 then
        let ia := plateauEnd x iMax (x.getD i 0) x.length (i + 1)
        if x.getD ia 0 < x.getD i 0 then
          (i + (ia - 1)) / 2 :: lmAux x iMax fuel (ia + 1)
        else lmAux x iMax fuel (i + 1)
      else lmAux x iMax fuel (i + 1)
    else []

/-- `scipy.signal.find_peaks(values)[0]`: the indices of all local maxima
(plateau midpoints), strictly increasing. -/
def localMaxima (x : List ℚ) : List Nat := lmAux x (x.length - 1) x.length 1

/-- Insert `j` into an index list kept sorted by value ascending; a new
index moves past every entry with a value `≤` its own, so equal values
keep their original index order (numpy's stable insertion sort, which is
what `np.argsort` runs on short arrays). -/
def insertA (vs : List ℚ) (j : Nat) : List Nat → List Nat
  | [] => [j]
  | i :: rest =>
    if vs.getD j 0 < vs.getD i 0 then j :: i :: rest
    else i :: insertA vs j rest

/-- `np.argsort(vs)`: the permutation of `0..vs.length-1` listing indices
by value ascending, ties by original position ascending. -/
def argsortAsc (vs : List ℚ) : List Nat :=
  (List.range vs.length).foldl (fun acc j => insertA vs j acc) []

/-- `peaks_indices[np.argsort(peak_values)[::-1]]` (line 54): all detected
peak indices ranked by peak value descending; the reversal also reverses
the order of equal values. -/
def rankedPeakIdx (values : List ℚ) : List Nat :=
  let pk := localMaxima values
  ((argsortAsc (pk.map (fun i => values.getD i 0))).reverse).map
    (fun t => pk.getD t 0)

/-- `extract_peaks_from_series(dates, values, num_peaks)` (lines 45-57). -/
def extractPeaksFromSeries (dates : List ℤ) (values : List ℚ) (numPeaks : Nat) :
    List (ℤ × ℚ) :=
  if (localMaxima values).isEmpty then []
  else ((rankedPeakIdx values).take numPeaks).map
    (fun i => (dates.getD i 0, values.getD i 0))

/-- Insert an index into a list ordered by peak value descending with
ties broken by smaller original index first. -/
def insertSpecPeak (values : List ℚ) (j : Nat) : List Nat → List Nat
  | [] => [j]
  | i :: rest =>
    if values.getD i 0 < values.getD j 0 ∨
        (values.getD j 0 = values.getD i 0 ∧ j < i) then j :: i :: rest
    else i :: insertSpecPeak values j rest

/-- Modelled from the spec: "Rank all detected peaks by value descending;
break ties by original sequence position ascending (earlier-occurring
peak wins the tie)".  Used only to compare the specified ranking with the
one the code computes. -/
def specRankedPeakIdx (values : List ℚ) : List Nat :=
  (localMaxima values).foldl (fun acc j => insertSpecPeak values j acc) []

/-! ## The cohort ranker `get_top_companies` -/

/-- Lexicographic strict comparison of character lists by code point:
Python's `<` on strings. -/
def charListLt : List Char → List Char → Bool
  | [], [] => false
  | [], _ :: _ => true
  | _ :: _, [] => false
  | a :: as, b :: bs =>
    if a < b then true
    else if b < a then false
    else charListLt as bs

/-- Python's `<` on strings (ticker labels), as pandas uses to sort group
keys. -/
def strLt (s t : String) : Bool := charListLt s.data t.data

/-- Insert a ticker into a sorted duplicate-free key list
(`df.groupby('ticker')` sorts its group keys and keeps each one once). -/
def insertKeyAsc (k : String) : List String → List String
  | [] => [k]
  | a :: rest =>
    if strLt k a then k :: a :: rest
    else if k = a then a :: rest
    else a :: insertKeyAsc k rest

/-- The group keys of `df.groupby('ticker')`: the distinct tickers of the
rows, in ascending order. -/
def uniqueKeysAsc (rows : List (String × ℚ)) : List String :=
  rows.foldl (fun acc r => insertKeyAsc r.1 acc) []

/-- `df.groupby('ticker')['stock_price'].mean()` at one ticker. -/
def groupMean (rows : List (String × ℚ)) (t : String) : ℚ :=
  let g := rows.filter (fun r => decide (r.1 = t))
  (g.map Prod.snd).sum / (g.length : ℚ)

/-- `avg_price.sort_values(ascending=False)` (line 42): pandas argsorts
the score array ascending (stably) and reverses the indexer, so the keys
come out by `|mean|` descending with ties reversed. -/
def rankedCompanies (rows : List (String × ℚ)) : List String :=
  let keys := uniqueKeysAsc rows
  ((argsortAsc (keys.map (fun t => |groupMean rows t|))).reverse).map
    (fun t => keys.getD t "")

/-- `get_top_companies(df, top_n)` (lines 39-43). -/
def getTopCompanies (rows : List (String × ℚ)) (n : Nat) : List String :=
  (rankedCompanies rows).take n

/-- Distinct keys in first-encounter order. -/
def keysInOrder (rows : List (String × ℚ)) : List String :=
  rows.foldl (fun acc r => if acc.any (fun a => decide (a = r.1)) then acc else acc ++ [r.1]) []

/-- Stable descending insertion for the specified cohort ranking. -/
def insertDescKey (score : String → ℚ) (k : String) : List String → List String
  | [] => [k]
  | a :: rest =>
    if score a < score k then k :: a :: rest
    else a :: insertDescKey score k rest

/-- Modelled from the spec: "Rank keys by this metric descending; ties
broken by stable original key order (the order keys were first
encountered in the input)", truncated to `n`.  Used only to compare the
specified ranking with the one the code computes. -/
def specTopCompanies (rows : List (String × ℚ)) (n : Nat) : List String :=
  ((keysInOrder rows).foldl
    (fun acc k => insertDescKey (fun t => |groupMean rows t|) k acc) []).take n

/-! ## Basic lemmas about the reconstructor pipeline -/

theorem cumsumFrom_length (acc : ℚ) (xs : List ℚ) :
    (cumsumFrom acc xs).length = xs.length := by
  induction xs generalizing acc with
  | nil => rfl
  | cons x xs ih => simp [cumsumFrom, ih]

theorem cumsumFrom_getD (xs : List ℚ) :
    ∀ (acc : ℚ) (i : Nat), i < xs.length →
      (cumsumFrom acc xs).getD i 0 = acc + (xs.take (i + 1)).sum := by
  induction xs with
  | nil => intro acc i h; simp at h
  | cons x xs ih =>
    intro acc i h
    cases i with
    | zero => simp [cumsumFrom]
    | succ i =>
      have h' : i < xs.length := by simpa using h
      simp only [cumsumFrom, List.getD_cons_succ, List.take_succ_cons, List.sum_cons]
      rw [ih (acc + x) i h', add_assoc]

theorem zip_getD {α β : Type} (as : List α) (bs : List β) (da : α) (db : β) :
    ∀ i, i < as.length → i < bs.length →
      (as.zip bs).getD i (da, db) = (as.getD i da, bs.getD i db) := by
  induction as generalizing bs with
  | nil => intro i h; simp at h
  | cons a as ih =>
    intro i h1 h2
    cases bs with
    | nil => simp at h2
    | cons b bs =>
      cases i with
      | zero => simp [List.zip_cons_cons]
      | succ i =>
        simp only [List.zip_cons_cons, List.getD_cons_succ]
        exact ih bs i (by simpa using h1) (by simpa using h2)

theorem dateRange_length {s e : Nat} (h : s ≤ e) :
    (dateRange s e).length = e - s + 1 := by
  simp [dateRange, Nat.not_lt.mpr h]

theorem dateRange_getD {s e i : Nat} (h : i < (dateRange s e).length) :
    (dateRange s e).getD i 0 = s + i := by
  by_cases hse : e < s
  · simp [dateRange, hse] at h
  · have hlen : i < e - s + 1 := by simpa [dateRange, hse] using h
    rw [dateRange, if_neg hse, List.getD_eq_getElem _ _ (by simpa using hlen)]
    simp

theorem dateRange_pairwise (s e : Nat) : (dateRange s e).Pairwise (· < ·) := by
  unfold dateRange
  split
  · exact List.Pairwise.nil
  · rw [List.pairwise_map]
    exact (List.pairwise_lt_range _).imp (fun h => by omega)

theorem cumsum_length (xs : List ℚ) : (cumsum xs).length = xs.length :=
  cumsumFrom_length 0 xs

theorem buildSeries_length (recs : List (Nat × ℚ)) (s e : Nat) :
    (buildSeries recs s e).length = (dateRange s e).length := by
  simp [buildSeries, cumsum_length]

theorem buildSeries_map_fst (recs : List (Nat × ℚ)) (s e : Nat) :
    (buildSeries recs s e).map Prod.fst = dateRange s e := by
  apply List.map_fst_zip
  simp [cumsum_length]

theorem buildSeries_getD_snd (recs : List (Nat × ℚ)) (s e : Nat) (i : Nat)
    (h : i < (dateRange s e).length) :
    ((buildSeries recs s e).getD i (0, 0)).2 =
      (((dateRange s e).map (dailyNet recs)).take (i + 1)).sum := by
  unfold buildSeries
  rw [zip_getD _ _ _ _ i h (by simpa [cumsum_length] using h)]
  simp only [cumsum]
  rw [cumsumFrom_getD _ 0 i (by simpa using h), zero_add]

theorem computeE_ok_some {txns : List RawTxn} {s e : Nat} {out : List (Nat × ℚ)}
    (h : computeInsiderHistoryE txns s e = Except.ok (some out)) :
    ∃ recs, recordsE s e txns = Except.ok recs ∧ recs ≠ [] ∧
      out = buildSeries recs s e := by
  unfold computeInsiderHistoryE at h
  cases hr : recordsE s e txns with
  | error err => rw [hr] at h; exact absurd h (by simp)
  | ok recs =>
    rw [hr] at h
    dsimp only at h
    by_cases hemp : recs.isEmpty
    · rw [if_pos hemp] at h; exact absurd h (by simp)
    · rw [if_neg hemp] at h
      refine ⟨recs, rfl, by simpa [List.isEmpty_iff] using hemp, ?_⟩
      exact (Option.some.inj (Except.ok.inj h)).symm

theorem dailyNet_eq_zero {recs : List (Nat × ℚ)} {d : Nat}
    (h : ∀ r ∈ recs, r.1 ≠ d) : dailyNet recs d = 0 := by
  unfold dailyNet
  have hf : recs.filter (fun r => decide (r.1 = d)) = [] :=
    List.filter_eq_nil_iff.mpr (fun r hr => by simpa using h r hr)
  rw [hf]
  rfl

/-! ## Claim C3: window coverage of the reconstructed series -/

/-- C3: for every window with `start ≤ end` and every transaction list on
which the reconstructor returns a non-empty result, the output has exactly
`(end − start).days + 1` rows, its dates are exactly the days of
`[start, end]` each appearing once in strictly ascending order, and a day
with no surviving record contributes a daily net of 0. -/
theorem c3_window_coverage (txns : List RawTxn) (s e : Nat) (out : List (Nat × ℚ))
    (hse : s ≤ e) (h : computeInsiderHistoryE txns s e = Except.ok (some out)) :
    out.length = (e - s) + 1 ∧
    out.map Prod.fst = dateRange s e ∧
    (out.map Prod.fst).Pairwise (· < ·) ∧
    (∀ recs, recordsE s e txns = Except.ok recs →
      ∀ d, (∀ r ∈ recs, r.1 ≠ d) → dailyNet recs d = 0) := by
  obtain ⟨recs, hrec, hne, hout⟩ := computeE_ok_some h
  subst hout
  refine ⟨?_, ?_, ?_, ?_⟩
  · rw [buildSeries_length, dateRange_length hse]
  · exact buildSeries_map_fst recs s e
  · rw [buildSeries_map_fst recs s e]; exact dateRange_pairwise s e
  · intro recs' _ d hd
    exact dailyNet_eq_zero hd

/-! ## Claim C4: prefix-sum structure of the cumulative series -/

/-- C4: in every non-empty reconstructed series, the running total at
position `i+1` is the running total at position `i` plus the daily net of
day `start + (i+1)`, the running total at position 0 is the daily net of
`start`, and the final running total is the sum of all daily net values
over the window. -/
theorem c4_prefix_sums (txns : List RawTxn) (s e : Nat)
    (recs out : List (Nat × ℚ))
    (hrec : recordsE s e txns = Except.ok recs)
    (h : computeInsiderHistoryE txns s e = Except.ok (some out)) :
    (0 < out.length → (out.getD 0 (0, 0)).2 = dailyNet recs s) ∧
    (∀ i, i + 1 < out.length →
      (out.getD (i + 1) (0, 0)).2 =
        (out.getD i (0, 0)).2 + dailyNet recs (s + (i + 1))) ∧
    (out.getD (out.length - 1) (0, 0)).2 =
      ((dateRange s e).map (dailyNet recs)).sum := by
  obtain ⟨recs', hrec', hne, hout⟩ := computeE_ok_some h
  have hrecs : recs' = recs := by
    rw [hrec] at hrec'
    exact (Except.ok.inj hrec').symm
  subst hrecs
  subst hout
  have hlen : (buildSeries recs' s e).length = (dateRange s e).length :=
    buildSeries_length recs' s e
  refine ⟨?_, ?_, ?_⟩
  · intro hpos
    have h0 : 0 < (dateRange s e).length := by rwa [hlen] at hpos
    rw [buildSeries_getD_snd recs' s e 0 h0]
    have hget : ((dateRange s e).map (dailyNet recs')).take 1 =
        [dailyNet recs' ((dateRange s e).getD 0 0)] := by
      cases hdr : dateRange s e with
      | nil => rw [hdr] at h0; simp at h0
      | cons a l => simp
    rw [hget, dateRange_getD h0]
    simp
  · intro i hi
    have hi' : i + 1 < (dateRange s e).length := by rwa [hlen] at hi
    have hmap : i + 1 < ((dateRange s e).map (dailyNet recs')).length := by
      simpa using hi'
    rw [buildSeries_getD_snd recs' s e (i + 1) hi',
      buildSeries_getD_snd recs' s e i (Nat.lt_of_succ_lt hi'),
      List.sum_take_succ _ (i + 1) hmap]
    congr 1
    rw [List.getElem_map]
    congr 1
    rw [← dateRange_getD hi', List.getD_eq_getElem _ _ hi']
  · by_cases hz : (buildSeries recs' s e).length = 0
    · rw [hz]
      have hdr : (dateRange s e).length = 0 := by rwa [hlen] at hz
      rw [List.length_eq_zero] at hdr
      simp [hdr, List.getD]
      have : buildSeries recs' s e = [] := by
        rw [← List.length_eq_zero, hz]
      simp [this]
    · have hpos : 0 < (buildSeries recs' s e).length := Nat.pos_of_ne_zero hz
      have hlt : (buildSeries recs' s e).length - 1 < (dateRange s e).length := by
        rw [← hlen]; omega
      rw [buildSeries_getD_snd recs' s e _ hlt]
      have : (buildSeries recs' s e).length - 1 + 1 =
          ((dateRange s e).map (dailyNet recs')).length := by
        simp only [List.length_map]
        omega
      rw [this, List.take_length]

/-! ## Claim C6: the empty result characterises "no surviving events" -/

/-- C6: the reconstructor returns the distinguished empty result exactly
when the per-record loop keeps no record, i.e. no event both parses to a
valid date and falls inside the window; any run with at least one kept
record (however its amounts cancel, and whatever its type string) yields
a non-empty series. -/
theorem c6_empty_iff_no_survivors (txns : List RawTxn) (s e : Nat) :
    computeInsiderHistoryE txns s e = Except.ok none ↔
      recordsE s e txns = Except.ok [] := by
  unfold computeInsiderHistoryE
  cases hr : recordsE s e txns with
  | error err => simp
  | ok recs =>
    dsimp only
    by_cases hemp : recs.isEmpty
    · rw [if_pos hemp]
      rw [List.isEmpty_iff] at hemp
      simp [hemp]
    · rw [if_neg hemp]
      rw [List.isEmpty_iff] at hemp
      simp [hemp]

/-! ## Claim C7: per-event validation behaviour -/

theorem recordsE_cons (s e : Nat) (txn : RawTxn) (t : List RawTxn) :
    recordsE s e (txn :: t) =
      match processTxnE s e txn with
      | .error err => .error err
      | .ok (.kept d v) => (recordsE s e t).map (fun l => (d, v) :: l)
      | .ok .droppedWithWarning => recordsE s e t
      | .ok .droppedSilently => recordsE s e t := rfl

theorem netValueOf_zero (tl : String) : netValueOf tl 0 = 0 := by
  unfold netValueOf
  split
  · rfl
  · split
    · exact neg_zero
    · rfl

/-- C7: an event whose date field fails strict `%Y-%m-%d` parsing is
dropped (with the warning outcome) and the loop continues; an event whose
parsed date falls outside the window is dropped silently and the loop
continues; an event whose amount fails numeric parsing stays in place and
contributes amount 0. -/
theorem c7_per_event_validation (s e : Nat) (txn : RawTxn) :
    (strptimeE (dateVal txn) = Except.error () →
      processTxnE s e txn = Except.ok TxnOutcome.droppedWithWarning ∧
      ∀ rest, recordsE s e (txn :: rest) = recordsE s e rest) ∧
    (∀ dt, strptimeE (dateVal txn) = Except.ok dt → (toRd dt < s ∨ e < toRd dt) →
      processTxnE s e txn = Except.ok TxnOutcome.droppedSilently ∧
      ∀ rest, recordsE s e (txn :: rest) = recordsE s e rest) ∧
    (∀ dt tl, strptimeE (dateVal txn) = Except.ok dt → ¬(toRd dt < s ∨ e < toRd dt) →
      floatE (valueVal txn) = Except.error () → lowerE (typeVal txn) = Except.ok tl →
      processTxnE s e txn = Except.ok (TxnOutcome.kept (toRd dt) 0)) := by
  refine ⟨?_, ?_, ?_⟩
  · intro hd
    have hp : processTxnE s e txn = Except.ok TxnOutcome.droppedWithWarning := by
      unfold processTxnE
      rw [hd]
    refine ⟨hp, fun rest => ?_⟩
    rw [recordsE_cons, hp]
  · intro dt hd hw
    have hp : processTxnE s e txn = Except.ok TxnOutcome.droppedSilently := by
      unfold processTxnE
      rw [hd]
      dsimp only
      rw [if_pos hw]
    refine ⟨hp, fun rest => ?_⟩
    rw [recordsE_cons, hp]
  · intro dt tl hd hw hv hl
    unfold processTxnE
    rw [hd]
    dsimp only
    rw [if_neg hw, hv]
    dsimp only
    rw [hl]
    dsimp only
    rw [netValueOf_zero]

/-! ## Claim C10: "buy" takes precedence over "sell" -/

/-- C10: an event whose lower-cased type string contains both `"buy"` and
`"sell"` is classified as a buy and contributes `+amount`, because the
buy test is the first branch; in particular a kept in-window event with
such a type string enters the records with its positive parsed amount. -/
theorem c10_buy_precedence (t : String) (v : ℚ)
    (hb : containsSub "buy".data (lowerStr t).data = true)
    (_hs : containsSub "sell".data (lowerStr t).data = true) :
    netValueOf (lowerStr t) v = v ∧
    ∀ (s e : Nat) (txn : RawTxn) (dt : CalDate),
      strptimeE (dateVal txn) = Except.ok dt → ¬(toRd dt < s ∨ e < toRd dt) →
      floatE (valueVal txn) = Except.ok v → typeVal txn = PyVal.str t →
      processTxnE s e txn = Except.ok (TxnOutcome.kept (toRd dt) v) := by
  have h1 : netValueOf (lowerStr t) v = v := by
    unfold netValueOf
    rw [if_pos hb]
  refine ⟨h1, ?_⟩
  intro s e txn dt hd hw hv hty
  unfold processTxnE
  rw [hd]
  dsimp only
  rw [if_neg hw, hv]
  dsimp only
  rw [hty]
  dsimp only [lowerE]
  rw [h1]

/-! ## Claim C9: exception safety of the per-record loop -/

/-- The transaction-type field is absent or a string (the only situation
in which the unguarded `.lower()` cannot raise). -/
def typeOkB (txn : RawTxn) : Bool :=
  match txn.transactionType with
  | some (.int _) => false
  | _ => true

theorem processTxnE_ok_of_typeOk (s e : Nat) (txn : RawTxn)
    (h : typeOkB txn = true) : ∃ o, processTxnE s e txn = Except.ok o := by
  unfold processTxnE
  cases hd : strptimeE (dateVal txn) with
  | error u => exact ⟨_, rfl⟩
  | ok dt =>
    dsimp only
    by_cases hw : toRd dt < s ∨ e < toRd dt
    · rw [if_pos hw]
      exact ⟨_, rfl⟩
    · rw [if_neg hw]
      have hl : ∃ tl, lowerE (typeVal txn) = Except.ok tl := by
        unfold typeVal
        cases hty : txn.transactionType with
        | none => exact ⟨_, rfl⟩
        | some pv =>
          cases pv with
          | str s' => exact ⟨_, rfl⟩
          | int n =>
            unfold typeOkB at h
            rw [hty] at h
            simp at h
      obtain ⟨tl, htl⟩ := hl
      rw [htl]
      exact ⟨_, rfl⟩

theorem recordsE_ok_of_typeOk (s e : Nat) (txns : List RawTxn)
    (h : ∀ txn ∈ txns, typeOkB txn = true) :
    ∃ recs, recordsE s e txns = Except.ok recs := by
  induction txns with
  | nil => exact ⟨[], rfl⟩
  | cons txn rest ih =>
    obtain ⟨o, ho⟩ := processTxnE_ok_of_typeOk s e txn (h txn (by simp))
    obtain ⟨recs, hrecs⟩ := ih (fun u hu => h u (by simp [hu]))
    cases o with
    | kept d v =>
      refine ⟨(d, v) :: recs, ?_⟩
      unfold recordsE
      rw [ho, hrecs]
      rfl
    | droppedWithWarning =>
      refine ⟨recs, ?_⟩
      unfold recordsE
      rw [ho]
      exact hrecs
    | droppedSilently =>
      refine ⟨recs, ?_⟩
      unfold recordsE
      rw [ho]
      exact hrecs

/-- C9 (amended): the reconstructor cannot raise on malformed date or
amount fields, missing fields, or unrecognised type strings; as long as
every present transaction-type field is a string, the computation returns
normally for every window. -/
theorem c9_no_exception_for_string_fields (txns : List RawTxn) (s e : Nat)
    (h : ∀ txn ∈ txns, typeOkB txn = true) :
    ∃ res, computeInsiderHistoryE txns s e = Except.ok res := by
  obtain ⟨recs, hrecs⟩ := recordsE_ok_of_typeOk s e txns h
  unfold computeInsiderHistoryE
  rw [hrecs]
  exact ⟨_, rfl⟩

/-! ## Claim C5: order- and decomposition-invariance of the aggregation -/

theorem dailyNet_perm {recs recs' : List (Nat × ℚ)} (h : recs.Perm recs')
    (d : Nat) : dailyNet recs d = dailyNet recs' d :=
  List.Perm.sum_eq ((h.filter _).map Prod.snd)

theorem buildSeries_perm {recs recs' : List (Nat × ℚ)} (h : recs.Perm recs')
    (s e : Nat) : buildSeries recs s e = buildSeries recs' s e := by
  unfold buildSeries
  have hdn : dailyNet recs = dailyNet recs' := funext (fun d => dailyNet_perm h d)
  rw [hdn]

theorem recordsE_perm {txns txns' : List RawTxn} (h : txns.Perm txns') (s e : Nat) :
    (recordsE s e txns = Except.error PyErr.attributeError ∧
      recordsE s e txns' = Except.error PyErr.attributeError) ∨
    (∃ l l', recordsE s e txns = Except.ok l ∧ recordsE s e txns' = Except.ok l' ∧
      l.Perm l') := by
  induction h with
  | nil => exact Or.inr ⟨[], [], rfl, rfl, List.Perm.nil⟩
  | cons x h ih =>
    rename_i t t'
    cases hp : processTxnE s e x with
    | error err =>
      cases err
      exact Or.inl ⟨by rw [recordsE_cons, hp], by rw [recordsE_cons, hp]⟩
    | ok o =>
      cases o with
      | kept d v =>
        rcases ih with ⟨h1, h2⟩ | ⟨l, l', h1, h2, hperm⟩
        · refine Or.inl ⟨?_, ?_⟩
          · rw [recordsE_cons, hp, h1]
            rfl
          · rw [recordsE_cons, hp, h2]
            rfl
        · refine Or.inr ⟨(d, v) :: l, (d, v) :: l', ?_, ?_, hperm.cons _⟩
          · rw [recordsE_cons, hp, h1]
            rfl
          · rw [recordsE_cons, hp, h2]
            rfl
      | droppedWithWarning =>
        rcases ih with ⟨h1, h2⟩ | ⟨l, l', h1, h2, hperm⟩
        · exact Or.inl ⟨by rw [recordsE_cons, hp]; exact h1,
            by rw [recordsE_cons, hp]; exact h2⟩
        · exact Or.inr ⟨l, l', by rw [recordsE_cons, hp]; exact h1,
            by rw [recordsE_cons, hp]; exact h2, hperm⟩
      | droppedSilently =>
        rcases ih with ⟨h1, h2⟩ | ⟨l, l', h1, h2, hperm⟩
        · exact Or.inl ⟨by rw [recordsE_cons, hp]; exact h1,
            by rw [recordsE_cons, hp]; exact h2⟩
        · exact Or.inr ⟨l, l', by rw [recordsE_cons, hp]; exact h1,
            by rw [recordsE_cons, hp]; exact h2, hperm⟩
  | swap x y l =>
    have reduce2 : ∀ (a b : RawTxn),
        recordsE s e (a :: b :: l) =
          match processTxnE s e a, processTxnE s e b, recordsE s e l with
          | Except.error err, _, _ => Except.error err
          | Except.ok (.kept da va), Except.error err, _ => Except.error err
          | Except.ok (.kept da va), Except.ok (.kept db vb), Except.error err =>
              Except.error err
          | Except.ok (.kept da va), Except.ok (.kept db vb), Except.ok L =>
              Except.ok ((da, va) :: (db, vb) :: L)
          | Except.ok (.kept da va), Except.ok _, r => r.map (fun L => (da, va) :: L)
          | Except.ok _, Except.error err, _ => Except.error err
          | Except.ok _, Except.ok (.kept db vb), r => r.map (fun L => (db, vb) :: L)
          | Except.ok _, Except.ok _, r => r := by
      intro a b
      rw [recordsE_cons s e a, recordsE_cons s e b]
      cases processTxnE s e a with
      | error err => rfl
      | ok oa =>
        cases processTxnE s e b with
        | error err => cases oa <;> rfl
        | ok ob =>
          cases recordsE s e l with
          | error err => cases oa <;> cases ob <;> rfl
          | ok L => cases oa <;> cases ob <;> rfl
    rw [reduce2 y x, reduce2 x y]
    cases hx : processTxnE s e x with
    | error errx =>
      cases errx
      cases hy : processTxnE s e y with
      | error erry => cases erry; exact Or.inl ⟨rfl, rfl⟩
      | ok oy =>
        cases hr : recordsE s e l with
        | error err => cases err; cases oy <;> exact Or.inl ⟨rfl, rfl⟩
        | ok L => cases oy <;> exact Or.inl ⟨rfl, rfl⟩
    | ok ox =>
      cases hy : processTxnE s e y with
      | error erry =>
        cases erry
        cases hr : recordsE s e l with
        | error err => cases err; cases ox <;> exact Or.inl ⟨rfl, rfl⟩
        | ok L => cases ox <;> exact Or.inl ⟨rfl, rfl⟩
      | ok oy =>
        cases hr : recordsE s e l with
        | error err =>
          cases err
          cases ox <;> cases oy <;> exact Or.inl ⟨rfl, rfl⟩
        | ok L =>
          cases ox with
          | kept dx vx =>
            cases oy with
            | kept dy vy =>
              exact Or.inr ⟨(dy, vy) :: (dx, vx) :: L, (dx, vx) :: (dy, vy) :: L,
                rfl, rfl, List.Perm.swap _ _ _⟩
            | droppedWithWarning =>
              exact Or.inr ⟨(dx, vx) :: L, (dx, vx) :: L, rfl, rfl, List.Perm.refl _⟩
            | droppedSilently =>
              exact Or.inr ⟨(dx, vx) :: L, (dx, vx) :: L, rfl, rfl, List.Perm.refl _⟩
          | droppedWithWarning =>
            cases oy with
            | kept dy vy =>
              exact Or.inr ⟨(dy, vy) :: L, (dy, vy) :: L, rfl, rfl, List.Perm.refl _⟩
            | droppedWithWarning => exact Or.inr ⟨L, L, rfl, rfl, List.Perm.refl _⟩
            | droppedSilently => exact Or.inr ⟨L, L, rfl, rfl, List.Perm.refl _⟩
          | droppedSilently =>
            cases oy with
            | kept dy vy =>
              exact Or.inr ⟨(dy, vy) :: L, (dy, vy) :: L, rfl, rfl, List.Perm.refl _⟩
            | droppedWithWarning => exact Or.inr ⟨L, L, rfl, rfl, List.Perm.refl _⟩
            | droppedSilently => exact Or.inr ⟨L, L, rfl, rfl, List.Perm.refl _⟩
  | trans h1 h2 ih1 ih2 =>
    rcases ih1 with ⟨ha, hb⟩ | ⟨l, l', ha, hb, hperm⟩
    · rcases ih2 with ⟨hc, hd⟩ | ⟨m, m', hc, hd, _⟩
      · exact Or.inl ⟨ha, hd⟩
      · rw [hb] at hc
        exact absurd hc (by simp)
    · rcases ih2 with ⟨hc, hd⟩ | ⟨m, m', hc, hd, hperm'⟩
      · rw [hb] at hc
        exact absurd hc (by simp)
      · rw [hb] at hc
        have : l' = m := Except.ok.inj hc
        subst this
        exact Or.inr ⟨l, m', ha, hd, hperm.trans hperm'⟩

theorem computeE_perm {txns txns' : List RawTxn} (h : txns.Perm txns') (s e : Nat) :
    computeInsiderHistoryE txns s e = computeInsiderHistoryE txns' s e := by
  rcases recordsE_perm h s e with ⟨h1, h2⟩ | ⟨l, l', h1, h2, hperm⟩
  · unfold computeInsiderHistoryE
    rw [h1, h2]
  · unfold computeInsiderHistoryE
    rw [h1, h2]
    dsimp only
    have hiff : l = [] ↔ l' = [] := by
      constructor
      · intro hl
        subst hl
        exact (hperm.symm).eq_nil
      · intro hl
        subst hl
        exact hperm.eq_nil
    by_cases hl : l = []
    · have hl' : l' = [] := hiff.mp hl
      subst hl
      subst hl'
      rfl
    · have hl' : l' ≠ [] := fun hh => hl (hiff.mpr hh)
      rw [if_neg (by simpa [List.isEmpty_iff] using hl),
        if_neg (by simpa [List.isEmpty_iff] using hl')]
      rw [buildSeries_perm hperm]

theorem sum_map_abs_of_nonneg {l : List ℚ} (h : ∀ a ∈ l, 0 ≤ a) :
    (l.map (fun a => |a|)).sum = l.sum := by
  induction l with
  | nil => rfl
  | cons a t ih =>
    simp only [List.map_cons, List.sum_cons]
    rw [abs_of_nonneg (h a (List.mem_cons_self a t)),
      ih (fun b hb => h b (List.mem_cons_of_mem a hb))]

theorem sum_map_abs_of_nonpos {l : List ℚ} (h : ∀ a ∈ l, a ≤ 0) :
    (l.map (fun a => |a|)).sum = -l.sum := by
  induction l with
  | nil => simp
  | cons a t ih =>
    simp only [List.map_cons, List.sum_cons, neg_add]
    rw [abs_of_nonpos (h a (List.mem_cons_self a t)),
      ih (fun b hb => h b (List.mem_cons_of_mem a hb))]

/-- C5: the reconstructor's result is invariant under permutation of the
input transaction list, and the aggregated daily net of several same-day,
same-sign records equals that of the single record carrying
`sign * Σ|aᵢ|` — aggregation is order- and decomposition-invariant. -/
theorem c5_order_and_decomposition :
    (∀ (txns txns' : List RawTxn) (s e : Nat), txns.Perm txns' →
      computeInsiderHistoryE txns s e = computeInsiderHistoryE txns' s e) ∧
    (∀ (d : Nat) (l : List ℚ) (sgn : Bool),
      (∀ a ∈ l, if sgn then 0 ≤ a else a ≤ 0) →
      dailyNet (l.map (fun a => (d, a))) d =
        dailyNet [(d, (if sgn then (1 : ℚ) else -1) * (l.map (fun a => |a|)).sum)] d) := by
  constructor
  · intro txns txns' s e h
    exact computeE_perm h s e
  · intro d l sgn h
    have h1 : dailyNet (l.map (fun a => (d, a))) d = l.sum := by
      unfold dailyNet
      rw [List.filter_map]
      simp [Function.comp_def]
    have h2 : dailyNet [(d, (if sgn then (1 : ℚ) else -1) * (l.map (fun a => |a|)).sum)] d
        = (if sgn then (1 : ℚ) else -1) * (l.map (fun a => |a|)).sum := by
      unfold dailyNet
      simp
    rw [h1, h2]
    cases sgn with
    | true =>
      rw [if_pos rfl, one_mul, sum_map_abs_of_nonneg (fun a ha => by simpa using h a ha)]
    | false =>
      rw [if_neg (by simp), sum_map_abs_of_nonpos (fun a ha => by simpa using h a ha)]
      ring

/-! ## Invariants of the scipy local-maxima scan -/

/-- `j` sits inside a maximal flat run `[l, r]` of interior samples that
is strictly higher than the samples bordering the run on both sides: the
shape of every index reported by scipy's `_local_maxima_1d`. -/
def PlateauPeak (x : List ℚ) (j : Nat) : Prop :=
  ∃ l r, 1 ≤ l ∧ l ≤ j ∧ j ≤ r ∧ r + 2 ≤ x.length ∧
    (∀ k, l ≤ k → k ≤ r → x.getD k 0 = x.getD j 0) ∧
    x.getD (l - 1) 0 < x.getD j 0 ∧ x.getD (r + 1) 0 < x.getD j 0

theorem plateauEnd_ge (x : List ℚ) (iMax : Nat) (v : ℚ) :
    ∀ fuel j, j ≤ plateauEnd x iMax v fuel j := by
  intro fuel
  induction fuel with
  | zero => intro j; exact Nat.le_refl j
  | succ fuel ih =>
    intro j
    unfold plateauEnd
    split
    · exact Nat.le_trans (Nat.le_succ j) (ih (j + 1))
    · exact Nat.le_refl j

theorem plateauEnd_le (x : List ℚ) (iMax : Nat) (v : ℚ) :
    ∀ fuel j, j ≤ iMax → plateauEnd x iMax v fuel j ≤ iMax := by
  intro fuel
  induction fuel with
  | zero => intro j h; exact h
  | succ fuel ih =>
    intro j h
    unfold plateauEnd
    split
    · rename_i hc
      exact ih (j + 1) hc.1
    · exact h

theorem plateauEnd_eq (x : List ℚ) (iMax : Nat) (v : ℚ) :
    ∀ fuel j k, j ≤ k → k < plateauEnd x iMax v fuel j → x.getD k 0 = v := by
  intro fuel
  induction fuel with
  | zero =>
    intro j k hjk hk
    unfold plateauEnd at hk
    omega
  | succ fuel ih =>
    intro j k hjk hk
    unfold plateauEnd at hk
    split at hk
    · rename_i hc
      by_cases hkj : k = j
      · subst hkj
        exact hc.2
      · exact ih (j + 1) k (by omega) hk
    · omega

theorem lmAux_ge (x : List ℚ) (iMax : Nat) :
    ∀ fuel i j, j ∈ lmAux x iMax fuel i → i ≤ j := by
  intro fuel
  induction fuel with
  | zero =>
    intro i j h
    simp [lmAux] at h
  | succ fuel ih =>
    intro i j h
    simp only [lmAux] at h
    split at h
    · split at h
      · split at h
        · rcases List.mem_cons.mp h with hj | hj
          · subst hj
            have hge := plateauEnd_ge x iMax (x.getD i 0) x.length (i + 1)
            omega
          · have h1 := ih _ j hj
            have hge := plateauEnd_ge x iMax (x.getD i 0) x.length (i + 1)
            omega
        · have h1 := ih (i + 1) j h
          omega
      · have h1 := ih (i + 1) j h
        omega
    · simp at h

theorem lmAux_sound (x : List ℚ) (iMax : Nat) (hiM : iMax + 1 ≤ x.length) :
    ∀ fuel i, 1 ≤ i → ∀ j ∈ lmAux x iMax fuel i, PlateauPeak x j := by
  intro fuel
  induction fuel with
  | zero =>
    intro i _ j h
    simp [lmAux] at h
  | succ fuel ih =>
    intro i h1i j h
    simp only [lmAux] at h
    split at h
    · rename_i hi
      split at h
      · rename_i hrise
        split at h
        · rename_i hdrop
          rcases List.mem_cons.mp h with hj | hj
          · subst hj
            have ha1 : i + 1 ≤ plateauEnd x iMax (x.getD i 0) x.length (i + 1) :=
              plateauEnd_ge x iMax (x.getD i 0) x.length (i + 1)
            have ha2 : plateauEnd x iMax (x.getD i 0) x.length (i + 1) ≤ iMax :=
              plateauEnd_le x iMax (x.getD i 0) x.length (i + 1) (by omega)
            set ia := plateauEnd x iMax (x.getD i 0) x.length (i + 1) with hia
            have heq : ∀ k, i + 1 ≤ k → k < ia → x.getD k 0 = x.getD i 0 :=
              fun k hk1 hk2 => plateauEnd_eq x iMax (x.getD i 0) x.length (i + 1) k hk1 hk2
            have hplat : ∀ k, i ≤ k → k ≤ ia - 1 → x.getD k 0 = x.getD i 0 := by
              intro k hk1 hk2
              by_cases hki : k = i
              · rw [hki]
              · exact heq k (by omega) (by omega)
            have hjl : i ≤ (i + (ia - 1)) / 2 := by omega
            have hjr : (i + (ia - 1)) / 2 ≤ ia - 1 := by omega
            have hjv : x.getD ((i + (ia - 1)) / 2) 0 = x.getD i 0 :=
              hplat _ hjl hjr
            refine ⟨i, ia - 1, h1i, hjl, hjr, by omega, ?_, ?_, ?_⟩
            · intro k hk1 hk2
              rw [hplat k hk1 hk2, hjv]
            · rw [hjv]
              exact hrise
            · rw [hjv]
              rw [show ia - 1 + 1 = ia from by omega]
              exact hdrop
          · exact ih _ (by omega) j hj
        · exact ih (i + 1) (by omega) j h
      · exact ih (i + 1) (by omega) j h
    · simp at h

theorem lmAux_pairwise (x : List ℚ) (iMax : Nat) :
    ∀ fuel i, (lmAux x iMax fuel i).Pairwise (· < ·) := by
  intro fuel
  induction fuel with
  | zero =>
    intro i
    simp [lmAux]
  | succ fuel ih =>
    intro i
    simp only [lmAux]
    split
    · split
      · split
        · rename_i hi hrise hdrop
          refine List.Pairwise.cons ?_ (ih _)
          intro j hj
          have hge := lmAux_ge x iMax fuel _ j hj
          have ha1 : i + 1 ≤ plateauEnd x iMax (x.getD i 0) x.length (i + 1) :=
            plateauEnd_ge x iMax (x.getD i 0) x.length (i + 1)
          omega
        · exact ih (i + 1)
      · exact ih (i + 1)
    · exact List.Pairwise.nil

theorem localMaxima_sound (x : List ℚ) : ∀ j ∈ localMaxima x, PlateauPeak x j := by
  intro j hj
  unfold localMaxima at hj
  by_cases hx : x.length = 0
  · rw [hx] at hj
    simp [lmAux] at hj
  · exact lmAux_sound x (x.length - 1) (by omega) x.length 1 (Nat.le_refl 1) j hj

theorem localMaxima_pairwise (x : List ℚ) : (localMaxima x).Pairwise (· < ·) :=
  lmAux_pairwise x (x.length - 1) x.length 1

theorem plateauPeak_interior {x : List ℚ} {j : Nat} (h : PlateauPeak x j) :
    1 ≤ j ∧ j + 2 ≤ x.length := by
  obtain ⟨l, r, h1, h2, h3, h4, _, _, _⟩ := h
  omega

/-! ## Correctness of the stable argsort and its reversal -/

/-- The order realised by `np.argsort`: by value ascending, ties by
original position ascending. -/
def ArgRel (vs : List ℚ) (a b : Nat) : Prop :=
  vs.getD a 0 < vs.getD b 0 ∨ (vs.getD a 0 = vs.getD b 0 ∧ a < b)

theorem insertA_perm (vs : List ℚ) (j : Nat) :
    ∀ l, (insertA vs j l).Perm (j :: l) := by
  intro l
  induction l with
  | nil => exact List.Perm.refl _
  | cons i rest ih =>
    unfold insertA
    split
    · exact List.Perm.refl _
    · exact (ih.cons i).trans (List.Perm.swap j i rest)

theorem foldl_insertA_perm (vs : List ℚ) :
    ∀ (js acc : List Nat),
      (js.foldl (fun a j => insertA vs j a) acc).Perm (js ++ acc) := by
  intro js
  induction js with
  | nil => intro acc; simp
  | cons j js ih =>
    intro acc
    simp only [List.foldl_cons, List.cons_append]
    refine ((ih (insertA vs j acc)).trans ?_)
    refine (List.Perm.append_left js (insertA_perm vs j acc)).trans ?_
    exact List.perm_middle

theorem argsortAsc_perm (vs : List ℚ) :
    (argsortAsc vs).Perm (List.range vs.length) := by
  unfold argsortAsc
  simpa using foldl_insertA_perm vs (List.range vs.length) []

theorem argsortAsc_mem_lt (vs : List ℚ) {t : Nat} (h : t ∈ argsortAsc vs) :
    t < vs.length := by
  have h2 := (argsortAsc_perm vs).mem_iff.mp h
  simpa using h2

theorem insertA_pairwise (vs : List ℚ) (j : Nat) :
    ∀ l, l.Pairwise (ArgRel vs) → (∀ i ∈ l, i < j) →
      (insertA vs j l).Pairwise (ArgRel vs) := by
  intro l
  induction l with
  | nil =>
    intro _ _
    exact List.pairwise_singleton _ _
  | cons i rest ih =>
    intro hp hlt
    unfold insertA
    split
    · rename_i hji
      refine List.Pairwise.cons ?_ hp
      intro b hb
      rcases List.mem_cons.mp hb with rfl | hb
      · exact Or.inl hji
      · rcases (List.pairwise_cons.mp hp).1 b hb with h1 | ⟨h1, _⟩
        · exact Or.inl (lt_trans hji h1)
        · exact Or.inl (lt_of_lt_of_le hji (le_of_eq h1))
    · rename_i hji
      have hp' := List.pairwise_cons.mp hp
      refine List.Pairwise.cons ?_
        (ih hp'.2 (fun b hb => hlt b (List.mem_cons_of_mem i hb)))
      intro b hb
      have hb' := (insertA_perm vs j rest).mem_iff.mp hb
      rcases List.mem_cons.mp hb' with rfl | hb'
      · rcases lt_or_eq_of_le (not_lt.mp hji) with h1 | h1
        · exact Or.inl h1
        · exact Or.inr ⟨h1, hlt i (List.mem_cons_self i rest)⟩
      · exact hp'.1 b hb'

theorem foldl_insertA_pairwise (vs : List ℚ) :
    ∀ (js acc : List Nat), js.Pairwise (· < ·) → acc.Pairwise (ArgRel vs) →
      (∀ i ∈ acc, ∀ j ∈ js, i < j) →
      (js.foldl (fun a j => insertA vs j a) acc).Pairwise (ArgRel vs) := by
  intro js
  induction js with
  | nil =>
    intro acc _ h _
    simpa using h
  | cons j js ih =>
    intro acc hjs hacc hcross
    simp only [List.foldl_cons]
    apply ih
    · exact (List.pairwise_cons.mp hjs).2
    · exact insertA_pairwise vs j acc hacc
        (fun i hi => hcross i hi j (List.mem_cons_self _ _))
    · intro i hi j' hj'
      rcases List.mem_cons.mp ((insertA_perm vs j acc).mem_iff.mp hi) with rfl | hi'
      · exact (List.pairwise_cons.mp hjs).1 j' hj'
      · exact hcross i hi' j' (List.mem_cons_of_mem _ hj')

theorem argsortAsc_pairwise (vs : List ℚ) :
    (argsortAsc vs).Pairwise (ArgRel vs) := by
  unfold argsortAsc
  exact foldl_insertA_pairwise vs (List.range vs.length) []
    (List.pairwise_lt_range _) List.Pairwise.nil (by simp)

theorem map_getD_range {α : Type} (l : List α) (d : α) :
    (List.range l.length).map (fun t => l.getD t d) = l := by
  apply List.ext_getElem
  · simp
  · intro i h1 h2
    rw [List.getElem_map, List.getElem_range, List.getD_eq_getElem _ _ h2]

theorem getD_map_q {α : Type} (f : α → ℚ) (l : List α) (d : α) {t : Nat}
    (h : t < l.length) : (l.map f).getD t 0 = f (l.getD t d) := by
  rw [List.getD_eq_getElem _ _ (by simpa using h), List.getElem_map,
    List.getD_eq_getElem _ _ h]

theorem pairwise_getD {α : Type} {R : α → α → Prop} {l : List α}
    (h : l.Pairwise R) (d : α) {t u : Nat} (ht : t < l.length)
    (hu : u < l.length) (htu : t < u) : R (l.getD t d) (l.getD u d) := by
  rw [List.getD_eq_getElem _ _ ht, List.getD_eq_getElem _ _ hu]
  have h2 := List.pairwise_iff_get.mp h ⟨t, ht⟩ ⟨u, hu⟩ htu
  simpa using h2

/-! ## Claims C1 and C2: shape and ranking of the returned peaks -/

/-- The order in which the peak selector emits peaks: value descending,
ties by original position descending (the reversal of a stable ascending
argsort flips the relative order of equal values). -/
def RC2 (values : List ℚ) (a b : Nat) : Prop :=
  values.getD b 0 < values.getD a 0 ∨
    (values.getD a 0 = values.getD b 0 ∧ b < a)

theorem rankedPeakIdx_perm (values : List ℚ) :
    (rankedPeakIdx values).Perm (localMaxima values) := by
  unfold rankedPeakIdx
  have hlen : ((localMaxima values).map (fun i => values.getD i 0)).length =
      (localMaxima values).length := List.length_map _ _
  have h1 : ((argsortAsc ((localMaxima values).map (fun i => values.getD i 0))).reverse).Perm
      (List.range (localMaxima values).length) := by
    refine (List.reverse_perm _).trans ?_
    rw [← hlen]
    exact argsortAsc_perm _
  have h2 := h1.map (fun t => (localMaxima values).getD t 0)
  rwa [map_getD_range (localMaxima values) 0] at h2

theorem rankedPeakIdx_pairwise (values : List ℚ) :
    (rankedPeakIdx values).Pairwise (RC2 values) := by
  unfold rankedPeakIdx
  rw [List.pairwise_map, List.pairwise_reverse]
  have hlen : ((localMaxima values).map (fun i => values.getD i 0)).length =
      (localMaxima values).length := List.length_map _ _
  refine (argsortAsc_pairwise _).imp_of_mem ?_
  intro t u ht hu hR
  have ht' : t < (localMaxima values).length := by
    have := argsortAsc_mem_lt _ ht
    omega
  have hu' : u < (localMaxima values).length := by
    have := argsortAsc_mem_lt _ hu
    omega
  have hvt := getD_map_q (fun i => values.getD i 0) (localMaxima values) 0 ht'
  have hvu := getD_map_q (fun i => values.getD i 0) (localMaxima values) 0 hu'
  rcases hR with h1 | ⟨h1, h2⟩
  · rw [hvt, hvu] at h1
    exact Or.inl h1
  · rw [hvt, hvu] at h1
    exact Or.inr ⟨h1.symm,
      pairwise_getD (localMaxima_pairwise values) 0 ht' hu' h2⟩

theorem extract_eq_take_map (dates : List ℤ) (values : List ℚ) (k : Nat) :
    extractPeaksFromSeries dates values k =
      ((rankedPeakIdx values).take k).map
        (fun i => (dates.getD i 0, values.getD i 0)) := by
  unfold extractPeaksFromSeries
  split
  · rename_i hemp
    have hpk : localMaxima values = [] := by simpa [List.isEmpty_iff] using hemp
    have hr : rankedPeakIdx values = [] :=
      List.Perm.eq_nil (hpk ▸ rankedPeakIdx_perm values)
    rw [hr]
    simp
  · rfl

theorem rankedPeakIdx_length (values : List ℚ) :
    (rankedPeakIdx values).length = (localMaxima values).length :=
  (rankedPeakIdx_perm values).length_eq

/-- C1 (amended): every index the peak selector reports is an interior
index of the series sitting inside a maximal flat run of equal values
that is strictly higher than the samples immediately before and after
the run (scipy's plateau semantics; for a one-sample run this is exactly
"strictly greater than both neighbours"), and every returned pair is the
(date, value) of such a reported index. -/
theorem c1_peak_shape (dates : List ℤ) (values : List ℚ) (k : Nat) :
    (∀ j ∈ localMaxima values,
      1 ≤ j ∧ j + 2 ≤ values.length ∧ PlateauPeak values j) ∧
    (∀ p ∈ extractPeaksFromSeries dates values k,
      ∃ j, j ∈ localMaxima values ∧ p = (dates.getD j 0, values.getD j 0)) := by
  constructor
  · intro j hj
    have h := localMaxima_sound values j hj
    have h2 := plateauPeak_interior h
    exact ⟨h2.1, h2.2, h⟩
  · intro p hp
    rw [extract_eq_take_map] at hp
    obtain ⟨i, hi, hpe⟩ := List.mem_map.mp hp
    exact ⟨i, (rankedPeakIdx_perm values).mem_iff.mp (List.mem_of_mem_take hi),
      hpe.symm⟩

/-- C2 (amended): the peak selector returns the first `k` elements of the
detected-peak list ranked by value descending with ties broken by
original position descending (later-occurring peak first — the code
reverses a stable ascending argsort, which flips ties); the output length
is `min k` (number of peaks), and `k` beyond the peak count returns
exactly the existing peaks. -/
theorem c2_ranking (dates : List ℤ) (values : List ℚ) (k : Nat) :
    (extractPeaksFromSeries dates values k).length =
      min k (localMaxima values).length ∧
    (rankedPeakIdx values).Perm (localMaxima values) ∧
    (rankedPeakIdx values).Pairwise (RC2 values) ∧
    extractPeaksFromSeries dates values k =
      ((rankedPeakIdx values).take k).map
        (fun i => (dates.getD i 0, values.getD i 0)) := by
  refine ⟨?_, rankedPeakIdx_perm values, rankedPeakIdx_pairwise values,
    extract_eq_take_map dates values k⟩
  rw [extract_eq_take_map, List.length_map, List.length_take,
    rankedPeakIdx_length]

/-! ## Claim C8: ranking of tickers by absolute mean price -/

theorem charListLt_trans :
    ∀ {x y z : List Char}, charListLt x y = true → charListLt y z = true →
      charListLt x z = true := by
  intro x
  induction x with
  | nil =>
    intro y z h1 h2
    cases y with
    | nil => simp [charListLt] at h1
    | cons b bs =>
      cases z with
      | nil => simp [charListLt] at h2
      | cons c cs => rfl
  | cons a as ih =>
    intro y z h1 h2
    cases y with
    | nil => simp [charListLt] at h1
    | cons b bs =>
      cases z with
      | nil => simp [charListLt] at h2
      | cons c cs =>
        unfold charListLt at h1 h2 ⊢
        split at h1
        · rename_i hab
          split at h2
          · rename_i hbc
            rw [if_pos (lt_trans hab hbc)]
          · split at h2
            · exact absurd h2 (by simp)
            · rename_i hcb hbc
              have hbc' : b = c := le_antisymm (not_lt.mp hbc) (not_lt.mp hcb)
              rw [if_pos (hbc' ▸ hab)]
        · split at h1
          · exact absurd h1 (by simp)
          · rename_i hba hab
            have hab' : a = b := le_antisymm (not_lt.mp hab) (not_lt.mp hba)
            subst hab'
            split at h2
            · rename_i hac
              rw [if_pos hac]
            · split at h2
              · exact absurd h2 (by simp)
              · rename_i hca hac
                rw [if_neg hac, if_neg hca]
                exact ih h1 h2

theorem charListLt_of_not_lt_of_ne :
    ∀ {x y : List Char}, charListLt x y = false → x ≠ y →
      charListLt y x = true := by
  intro x
  induction x with
  | nil =>
    intro y h1 hne
    cases y with
    | nil => exact absurd rfl hne
    | cons b bs => simp [charListLt] at h1
  | cons a as ih =>
    intro y h1 hne
    cases y with
    | nil => rfl
    | cons b bs =>
      unfold charListLt at h1 ⊢
      split at h1
      · exact absurd h1 (by simp)
      · split at h1
        · rename_i hba
          rw [if_pos hba]
        · rename_i hab hba
          have hab' : a = b := le_antisymm (not_lt.mp hba) (not_lt.mp hab)
          subst hab'
          rw [if_neg hab, if_neg hba]
          exact ih h1 (fun hh => hne (by rw [hh]))

theorem strLt_trans {x y z : String} (h1 : strLt x y = true)
    (h2 : strLt y z = true) : strLt x z = true :=
  charListLt_trans h1 h2

theorem strLt_of_not_lt_of_ne {x y : String} (h1 : strLt x y = false)
    (hne : x ≠ y) : strLt y x = true :=
  charListLt_of_not_lt_of_ne h1 (fun hh => hne (congrArg String.mk hh))

theorem insertKeyAsc_mem (k : String) :
    ∀ l b, b ∈ insertKeyAsc k l → b = k ∨ b ∈ l := by
  intro l
  induction l with
  | nil =>
    intro b hb
    simp [insertKeyAsc] at hb
    exact Or.inl hb
  | cons a rest ih =>
    intro b hb
    unfold insertKeyAsc at hb
    split at hb
    · rcases List.mem_cons.mp hb with rfl | hb'
      · exact Or.inl rfl
      · exact Or.inr hb'
    · split at hb
      · exact Or.inr hb
      · rcases List.mem_cons.mp hb with rfl | hb'
        · exact Or.inr (List.mem_cons_self _ _)
        · rcases ih b hb' with h | h
          · exact Or.inl h
          · exact Or.inr (List.mem_cons_of_mem _ h)

theorem insertKeyAsc_pairwise (k : String) :
    ∀ l, l.Pairwise (fun a b => strLt a b = true) →
      (insertKeyAsc k l).Pairwise (fun a b => strLt a b = true) := by
  intro l
  induction l with
  | nil =>
    intro _
    exact List.pairwise_singleton _ _
  | cons a rest ih =>
    intro hp
    have hp' := List.pairwise_cons.mp hp
    unfold insertKeyAsc
    split
    · rename_i hka
      refine List.Pairwise.cons ?_ hp
      intro b hb
      rcases List.mem_cons.mp hb with rfl | hb'
      · exact hka
      · exact strLt_trans hka (hp'.1 b hb')
    · split
      · exact hp
      · rename_i hka hne
        refine List.Pairwise.cons ?_ (ih hp'.2)
        intro b hb
        rcases insertKeyAsc_mem k rest b hb with rfl | hb'
        · exact strLt_of_not_lt_of_ne (Bool.not_eq_true _ ▸ eq_false_of_ne_true hka) hne
        · exact hp'.1 b hb'

theorem uniqueKeysAsc_pairwise (rows : List (String × ℚ)) :
    (uniqueKeysAsc rows).Pairwise (fun a b => strLt a b = true) := by
  unfold uniqueKeysAsc
  have hgen : ∀ (rs : List (String × ℚ)) (acc : List String),
      acc.Pairwise (fun a b => strLt a b = true) →
      (rs.foldl (fun acc r => insertKeyAsc r.1 acc) acc).Pairwise
        (fun a b => strLt a b = true) := by
    intro rs
    induction rs with
    | nil => intro acc h; exact h
    | cons r rs ih =>
      intro acc h
      exact ih _ (insertKeyAsc_pairwise r.1 acc h)
  exact hgen rows [] List.Pairwise.nil

/-- The order in which the cohort ranker emits tickers: absolute mean
descending, ties in reverse lexicographic order (pandas sorts the group
keys ascending and the descending sort reverses a stable ascending
argsort, flipping ties). -/
def RC8 (rows : List (String × ℚ)) (a b : String) : Prop :=
  |groupMean rows b| < |groupMean rows a| ∨
    (|groupMean rows a| = |groupMean rows b| ∧ strLt b a = true)

theorem rankedCompanies_perm (rows : List (String × ℚ)) :
    (rankedCompanies rows).Perm (uniqueKeysAsc rows) := by
  unfold rankedCompanies
  have hlen : ((uniqueKeysAsc rows).map (fun t => |groupMean rows t|)).length =
      (uniqueKeysAsc rows).length := List.length_map _ _
  have h1 : ((argsortAsc ((uniqueKeysAsc rows).map
      (fun t => |groupMean rows t|))).reverse).Perm
      (List.range (uniqueKeysAsc rows).length) := by
    refine (List.reverse_perm _).trans ?_
    rw [← hlen]
    exact argsortAsc_perm _
  have h2 := h1.map (fun t => (uniqueKeysAsc rows).getD t "")
  rwa [map_getD_range (uniqueKeysAsc rows) ""] at h2

theorem rankedCompanies_pairwise (rows : List (String × ℚ)) :
    (rankedCompanies rows).Pairwise (RC8 rows) := by
  unfold rankedCompanies
  rw [List.pairwise_map, List.pairwise_reverse]
  have hlen : ((uniqueKeysAsc rows).map (fun t => |groupMean rows t|)).length =
      (uniqueKeysAsc rows).length := List.length_map _ _
  refine (argsortAsc_pairwise _).imp_of_mem ?_
  intro t u ht hu hR
  have ht' : t < (uniqueKeysAsc rows).length := by
    have := argsortAsc_mem_lt _ ht
    omega
  have hu' : u < (uniqueKeysAsc rows).length := by
    have := argsortAsc_mem_lt _ hu
    omega
  have hvt := getD_map_q (fun t => |groupMean rows t|) (uniqueKeysAsc rows) "" ht'
  have hvu := getD_map_q (fun t => |groupMean rows t|) (uniqueKeysAsc rows) "" hu'
  rcases hR with h1 | ⟨h1, h2⟩
  · rw [hvt, hvu] at h1
    exact Or.inl h1
  · rw [hvt, hvu] at h1
    exact Or.inr ⟨h1.symm,
      pairwise_getD (uniqueKeysAsc_pairwise rows) "" ht' hu' h2⟩

/-- C8 (amended): the cohort ranker scores each distinct ticker by the
absolute value of the mean of its prices and returns the first `n`
tickers ranked by that score descending — but ties are broken in reverse
lexicographic ticker order, not first-encounter order, because pandas
groups by sorted key and the descending sort reverses a stable ascending
argsort. -/
theorem c8_ranking (rows : List (String × ℚ)) (n : Nat) :
    (getTopCompanies rows n).length = min n (uniqueKeysAsc rows).length ∧
    (rankedCompanies rows).Perm (uniqueKeysAsc rows) ∧
    (rankedCompanies rows).Pairwise (RC8 rows) ∧
    getTopCompanies rows n = (rankedCompanies rows).take n := by
  refine ⟨?_, rankedCompanies_perm rows, rankedCompanies_pairwise rows, rfl⟩
  unfold getTopCompanies
  rw [List.length_take, (rankedCompanies_perm rows).length_eq]

/-! ## Concrete fixtures, witnesses, and counterexamples -/

/-- Window 2024-01-01 .. 2024-01-03. -/
def wStart : Nat := toRd ⟨2024, 1, 1⟩

def wEnd : Nat := toRd ⟨2024, 1, 3⟩

def wTxnBuy : RawTxn :=
  ⟨some (.str "2024-01-02"), some (.str "Open Market Buy"), some (.str "100")⟩

def wTxnSell : RawTxn :=
  ⟨some (.str "2024-01-03"), some (.str "Proposed Sell"), some (.str "40")⟩

def wTxnBadDate : RawTxn :=
  ⟨some (.str "2024-13-40"), some (.str "Buy"), some (.str "5")⟩

def wTxnBadAmount : RawTxn :=
  ⟨some (.str "2024-01-02"), some (.str "Buy"), some (.str "12abc")⟩

def wTxnOutside : RawTxn :=
  ⟨some (.str "1999-06-15"), some (.str "Buy"), some (.str "5")⟩

def wTxnMess : RawTxn := ⟨none, some (.str "weird"), some (.str "abc")⟩

def wTxnIntType : RawTxn :=
  ⟨some (.str "2024-01-02"), some (.int 7), some (.str "10")⟩

def wRecs : List (Nat × ℚ) := [(toRd ⟨2024, 1, 2⟩, 100)]

theorem c3_witness :
    (buildSeries wRecs wStart wEnd).length = (wEnd - wStart) + 1 ∧
    (buildSeries wRecs wStart wEnd).map Prod.fst = dateRange wStart wEnd := by
  have h := c3_window_coverage [wTxnBuy] wStart wEnd
    (buildSeries wRecs wStart wEnd) (by decide) rfl
  exact ⟨h.1, h.2.1⟩

theorem c4_witness :
    ((buildSeries wRecs wStart wEnd).getD
        ((buildSeries wRecs wStart wEnd).length - 1) (0, 0)).2 =
      ((dateRange wStart wEnd).map (dailyNet wRecs)).sum :=
  (c4_prefix_sums [wTxnBuy] wStart wEnd wRecs
    (buildSeries wRecs wStart wEnd) rfl rfl).2.2

theorem c5_witness :
    computeInsiderHistoryE [wTxnSell, wTxnBuy] wStart wEnd =
      computeInsiderHistoryE [wTxnBuy, wTxnSell] wStart wEnd ∧
    dailyNet (([(3 : ℚ), 4]).map (fun a => (5, a))) 5 =
      dailyNet [(5, (if true then (1 : ℚ) else -1) *
        (([(3 : ℚ), 4]).map (fun a => |a|)).sum)] 5 := by
  constructor
  · exact c5_order_and_decomposition.1 _ _ wStart wEnd (List.Perm.swap _ _ _)
  · exact c5_order_and_decomposition.2 5 [3, 4] true (by decide)

theorem c7_witness :
    processTxnE wStart wEnd wTxnBadDate = Except.ok TxnOutcome.droppedWithWarning ∧
    processTxnE wStart wEnd wTxnOutside = Except.ok TxnOutcome.droppedSilently ∧
    processTxnE wStart wEnd wTxnBadAmount =
      Except.ok (TxnOutcome.kept (toRd ⟨2024, 1, 2⟩) 0) := by
  refine ⟨((c7_per_event_validation wStart wEnd wTxnBadDate).1 rfl).1, ?_, ?_⟩
  · exact ((c7_per_event_validation wStart wEnd wTxnOutside).2.1
      ⟨1999, 6, 15⟩ rfl (by decide)).1
  · exact (c7_per_event_validation wStart wEnd wTxnBadAmount).2.2
      ⟨2024, 1, 2⟩ (lowerStr "Buy") rfl (by decide) rfl rfl

theorem c9_witness :
    ∃ res, computeInsiderHistoryE [wTxnMess, wTxnBadDate, wTxnBadAmount]
      wStart wEnd = Except.ok res :=
  c9_no_exception_for_string_fields _ wStart wEnd (by decide)

/-- C9 counterexample: a record whose transaction-type field is a number
reaches the unguarded `.lower()` and the whole reconstruction raises
`AttributeError`, contradicting "terminates normally without raising an
exception, however malformed the type field". -/
theorem c9_counterexample :
    computeInsiderHistoryE [wTxnIntType] wStart wEnd =
      Except.error PyErr.attributeError := rfl

theorem c10_witness :
    netValueOf (lowerStr "Buy to cover, then Sell") 7 = 7 :=
  (c10_buy_precedence "Buy to cover, then Sell" 7 (by decide) (by decide)).1

theorem c1_witness :
    (1 ≤ 1 ∧ 1 + 2 ≤ ([0, 5, 0] : List ℚ).length ∧ PlateauPeak [0, 5, 0] 1) ∧
    (∃ j, j ∈ localMaxima [0, 5, 0] ∧
      ((11 : ℤ), (5 : ℚ)) =
        (([10, 11, 12] : List ℤ).getD j 0, ([0, 5, 0] : List ℚ).getD j 0)) := by
  constructor
  · exact (c1_peak_shape [10, 11, 12] [0, 5, 0] 3).1 1 (by decide)
  · exact (c1_peak_shape [10, 11, 12] [0, 5, 0] 3).2 ((11 : ℤ), (5 : ℚ)) (by decide)

/-- C1 counterexample: on the plateau series `[0, 2, 2, 0]` the peak
selector reports index 1 and returns its pair, yet `value[1]` is not
strictly greater than its right neighbour `value[2]` — the spec's strict
local-maximum rule does not hold for the code. -/
theorem c1_counterexample :
    localMaxima [0, 2, 2, 0] = [1] ∧
    extractPeaksFromSeries [10, 11, 12, 13] [0, 2, 2, 0] 3 = [(11, 2)] ∧
    ¬ (([0, 2, 2, 0] : List ℚ).getD 2 0 < ([0, 2, 2, 0] : List ℚ).getD 1 0) :=
  ⟨rfl, rfl, by decide⟩

/-- C2 counterexample: with two equal-valued peaks (indices 1 and 3 of
`[0, 5, 0, 5, 0]`), the code returns the later peak first, not the first
`k` of the spec's ranking (value descending, ties earlier-position
first). -/
theorem c2_counterexample :
    extractPeaksFromSeries [10, 11, 12, 13, 14] [0, 5, 0, 5, 0] 2 ≠
      ((specRankedPeakIdx [0, 5, 0, 5, 0]).take 2).map
        (fun i => (([10, 11, 12, 13, 14] : List ℤ).getD i 0,
          ([0, 5, 0, 5, 0] : List ℚ).getD i 0)) := by
  decide

/-- C8 counterexample: two tickers with equal scores, encountered in the
order A then B; the spec's first-encounter tie-break gives `[A, B]`, the
code returns `[B, A]`. -/
theorem c8_counterexample :
    getTopCompanies [("A", (10 : ℚ)), ("B", 10)] 2 ≠
      specTopCompanies [("A", (10 : ℚ)), ("B", 10)] 2 := by
  have hA : |groupMean [("A", (10 : ℚ)), ("B", 10)] "A"| = (10 : ℚ) := by
    norm_num [groupMean, List.filter_cons,
      eq_false (show ("B" : String) ≠ "A" from by decide)]
  have hB : |groupMean [("A", (10 : ℚ)), ("B", 10)] "B"| = (10 : ℚ) := by
    norm_num [groupMean, List.filter_cons,
      eq_false (show ("A" : String) ≠ "B" from by decide)]
  have h2 : getTopCompanies [("A", (10 : ℚ)), ("B", 10)] 2 = ["B", "A"] := by
    simp only [getTopCompanies, rankedCompanies,
      show uniqueKeysAsc [("A", (10 : ℚ)), ("B", 10)] = ["A", "B"] from by decide,
      List.map_cons, List.map_nil, hA, hB]
    decide
  have h3 : specTopCompanies [("A", (10 : ℚ)), ("B", 10)] 2 = ["A", "B"] := by
    simp only [specTopCompanies,
      show keysInOrder [("A", (10 : ℚ)), ("B", 10)] = ["A", "B"] from by decide,
      List.foldl, insertDescKey, hA, hB]
    norm_num
  rw [h2, h3]
  decide

end FundShorting
